import Mathlib

/-!
Verification of the `keyboard-chords` library (`src/key.rs`, `src/lib.rs`).

Shallow embedding conventions:
* Rust `std::time::Duration` is modelled as a `Nat` counting nanoseconds;
  `Duration::from_millis m` becomes `durationFromMillis m = m * 1000000`.
* The 16-bit key codes are modelled as `Nat` (no arithmetic is ever performed
  on them, so no wrap-around can matter).
* `Vec<Press>` becomes `List Press`; the builder methods that mutate `self`
  become functions from the old key list to the new one.
* The thread-local random generator obtained from `rand::rng()` inside
  `Chord::typewriter` is hidden global state in Rust; it is made explicit
  here as a `Nat` state threaded through the computation, with
  `rand`'s `random_range` on an empty `u64` range modelled as a panic
  (`Option.none`), exactly as `rand` documents.
-/

/-- Rust nanosecond count of a `std::time::Duration` built by
`Duration::from_millis`. -/
def durationFromMillis (m : Nat) : Nat :=
  m * 1000000

/-- `key.rs`: `enum Code { VirtualKey(u16), UnicodeKey(u16) }`. -/
inductive Code : Type
  | VirtualKey : Nat → Code
  | UnicodeKey : Nat → Code
deriving DecidableEq, Repr

/-- The underlying 16-bit numeric code carried by either `Code` variant. -/
def Code.val : Code → Nat
  | Code.VirtualKey k => k
  | Code.UnicodeKey k => k

/-- `key.rs`: `struct Press { code: Code, delay: Option<Duration>,
duration: Option<Duration> }`. -/
structure Press : Type where
  code : Code
  delay : Option Nat
  duration : Option Nat
deriving DecidableEq, Repr

/-- `key.rs` `Press::new`: a fresh unicode-style press with no delay and no
duration.  (`impl Into<u16>` guarantees the argument is a 16-bit value.) -/
def Press.new (code : Nat) : Press :=
  { code := Code.UnicodeKey code, delay := none, duration := none }

/-- `key.rs` `Press::as_unicode`: rewrite a virtual code as a unicode code,
keeping the numeric value; a unicode press is returned unchanged. -/
def Press.as_unicode (p : Press) : Press :=
  match p.code with
  | Code.UnicodeKey _ => p
  | Code.VirtualKey k => { p with code := Code.UnicodeKey k }

/-- `key.rs` `Press::as_virtual`: rewrite a unicode code as a virtual code,
keeping the numeric value; a virtual press is returned unchanged. -/
def Press.as_virtual (p : Press) : Press :=
  match p.code with
  | Code.UnicodeKey k => { p with code := Code.VirtualKey k }
  | Code.VirtualKey _ => p

/-- `key.rs` `Press::with_delay`: set the pre-delay, returning the updated
value. -/
def Press.with_delay (p : Press) (delay : Nat) : Press :=
  { p with delay := some delay }

/-- `key.rs` `Press::with_duration`: set the hold duration, returning the
updated value. -/
def Press.with_duration (p : Press) (duration : Nat) : Press :=
  { p with duration := some duration }

/-- One Unicode scalar value encoded as UTF-16 code units, exactly as Rust's
`char::encode_utf16`: scalars below `0x10000` are one unit, the rest become a
surrogate pair. -/
def encodeUtf16Char (c : Nat) : List Nat :=
  if c < 0x10000 then
    [c]
  else
    [0xD800 + (c - 0x10000) / 0x400, 0xDC00 + (c - 0x10000) % 0x400]

/-- Rust's `str::encode_utf16`: the concatenation of the UTF-16 encodings of
the string's scalar values, in reading order. -/
def encodeUtf16 (s : List Char) : List Nat :=
  (s.map (fun c => encodeUtf16Char c.toNat)).flatten

/-- `lib.rs` `Chord::push`: append one press at the end of the key list. -/
def Chord.push (keys : List Press) (p : Press) : List Press :=
  keys ++ [p]

/-- `lib.rs` `Chord::push_n`: the loop `for _ in 0..count { self.push(press.clone()) }`,
unrolled as structural recursion on the count. -/
def Chord.push_n (keys : List Press) (p : Press) : Nat → List Press
  | 0 => keys
  | n + 1 => Chord.push_n (Chord.push keys p) p n

/-- The loop body of `Chord::push_str`: push `Press::from(k)` (that is,
`Press::new k`) for each code unit `k`, left to right. -/
def Chord.pushUnits (keys : List Press) : List Nat → List Press
  | [] => keys
  | u :: us => Chord.pushUnits (keys ++ [Press.new u]) us

/-- `lib.rs` `Chord::push_str`: `for k in keys.encode_utf16() { self.keys.push(Press::from(k)) }`. -/
def Chord.push_str (keys : List Press) (s : List Char) : List Press :=
  Chord.pushUnits keys (encodeUtf16 s)

/-- One step of the (hidden, thread-local) random generator state used by
`rand::rng()`; concrete update irrelevant to every claim, a 64-bit LCG. -/
def rngNext (s : Nat) : Nat :=
  (6364136223846793005 * s + 1442695040888963407) % 2 ^ 64

/-- `rand`'s `Rng::random_range` on the half-open `u64` range `lo..hi`:
panics (modelled as `none`) when the range is empty, otherwise yields a value
in `[lo, hi)` determined by the generator state. -/
def randomRange (s lo hi : Nat) : Option Nat :=
  if lo < hi then some (lo + s % (hi - lo)) else none

/-- `lib.rs` `Chord::typewriter`: walk the key list; a press whose delay is
already set is skipped (`continue`); otherwise draw from the thread-local
generator over `lo..hi` and store `Duration::from_millis` of the draw.
`none` models the `random_range` panic on an empty range, which fires at the
first press with an unset delay before any press has been mutated. -/
def Chord.typewriter : List Press → Nat → Nat → Nat → Option (List Press × Nat)
  | [], _, _, rng => some ([], rng)
  | p :: rest, lo, hi, rng =>
    match p.delay with
    | some _ =>
      (Chord.typewriter rest lo hi rng).map (fun r => (p :: r.1, r.2))
    | none =>
      match randomRange rng lo hi with
      | none => none
      | some d =>
        (Chord.typewriter rest lo hi (rngNext rng)).map
          (fun r => ({ p with delay := some (durationFromMillis d) } :: r.1, r.2))

/-- A key action as handed to the transmission sink. -/
inductive KeyAction : Type
  | keyDown : KeyAction
  | keyUp : KeyAction
deriving DecidableEq, Repr

/-- A scheduled low-level event: a code, a down/up action and its offset
from playback start. -/
structure TimedEvent : Type where
  code : Code
  action : KeyAction
  time : Nat
deriving DecidableEq, Repr

/-- Modelled from the spec: the expansion step of `win::send_inputs`
(`src/win.rs` is compiled only under `cfg(target_os = "windows")` and its
source is not present).  Section 4.3: with `down_at = p.delay.unwrap_or(ZERO)`,
a press without a duration yields one dispatch unit holding its key-down and
key-up both at `down_at`; a press with duration `d` yields a key-down unit at
`down_at` and a key-up unit at `down_at + d`. -/
def expandPress (p : Press) : List (List TimedEvent) :=
  match p.duration with
  | none =>
    [[{ code := p.code, action := KeyAction.keyDown, time := p.delay.getD 0 },
      { code := p.code, action := KeyAction.keyUp, time := p.delay.getD 0 }]]
  | some d =>
    [[{ code := p.code, action := KeyAction.keyDown, time := p.delay.getD 0 }],
     [{ code := p.code, action := KeyAction.keyUp, time := p.delay.getD 0 + d }]]

/-- Modelled from the spec: all timed events of a chord, in press insertion
order, down before up within each press. -/
def allEvents (keys : List Press) : List TimedEvent :=
  ((keys.map expandPress).flatten).flatten

/-- Insert a timestamp into an ascending duplicate-free list, keeping it
ascending and duplicate-free. -/
def insertTime (t : Nat) : List Nat → List Nat
  | [] => [t]
  | x :: xs =>
    if t < x then t :: x :: xs
    else if t = x then x :: xs
    else x :: insertTime t xs

/-- The distinct timestamps of a chord's events, ascending. -/
def eventTimes (keys : List Press) : List Nat :=
  ((allEvents keys).map TimedEvent.time).foldr insertTime []

/-- Modelled from the spec: the dispatch batch at instant `t` — every event
scheduled at `t`, in press insertion order (a stable filter), so the atomic
down/up pair of a durationless press stays adjacent. -/
def batchAt (keys : List Press) (t : Nat) : List TimedEvent :=
  (allEvents keys).filter (fun e => e.time == t)

/-- Modelled from the spec: the sorted dispatch schedule of a chord — one
batch per distinct timestamp, in ascending time order. -/
def schedule (keys : List Press) : List (Nat × List TimedEvent) :=
  (eventTimes keys).map (fun t => (t, batchAt keys t))

/-- One observable step of a playback run: a cooperative suspension for some
time, or a synchronous hand-off of one batch to the transmission sink. -/
inductive Act : Type
  | wait : Nat → Act
  | send : List TimedEvent → Act
deriving DecidableEq, Repr

/-- Modelled from the spec: the playback loop of `win::send_inputs` — for
each batch in ascending time order, suspend until the elapsed time since
playback start reaches the batch's instant, then hand the batch to the sink. -/
def loopActs : Nat → List (Nat × List TimedEvent) → List Act
  | _, [] => []
  | elapsed, (t, b) :: rest =>
    Act.wait (t - elapsed) :: Act.send b :: loopActs (max elapsed t) rest

/-- Modelled from the spec: the full trace of `win::send_inputs` on a chord. -/
def send_inputs (keys : List Press) : List Act :=
  loopActs 0 (schedule keys)

/-- `lib.rs` `Chord::play`: the body is `win::send_inputs(&self.keys)` under
`#[cfg(target_os = "windows")]` and empty otherwise; the `cfg` becomes the
`isWindows` flag. -/
def Chord.play (isWindows : Bool) (keys : List Press) : List Act :=
  if isWindows then send_inputs keys else []

/-- `lib.rs` `Chord::play_after`: `tokio::time::sleep(duration).await`
followed by `self.play().await` on the unmodified chord. -/
def Chord.play_after (isWindows : Bool) (keys : List Press) (t : Nat) : List Act :=
  Act.wait t :: Chord.play isWindows keys

/-- Interpret a playback trace against a wall clock that starts at `clock`:
each wait advances the clock, each send dispatches its batch at the current
absolute time.  Returns the absolute dispatch timeline. -/
def absDispatch (clock : Nat) : List Act → List (Nat × List TimedEvent)
  | [] => []
  | Act.wait d :: rest => absDispatch (clock + d) rest
  | Act.send b :: rest => (clock, b) :: absDispatch clock rest

/-- How `typewriter` relates an input press to the corresponding output
press: presses already carrying a delay are untouched; presses with an unset
delay keep their code and duration and receive some delay of `d` milliseconds
with `lo ≤ d < hi`. -/
def TypewriterRel (lo hi : Nat) (p q : Press) : Prop :=
  (p.delay ≠ none → q = p) ∧
  (p.delay = none →
    q.code = p.code ∧ q.duration = p.duration ∧
    ∃ d, lo ≤ d ∧ d < hi ∧ q.delay = some (durationFromMillis d))

/-! ## Helper lemmas -/

/-- The `push_str` loop is appending the mapped unit list. -/
theorem pushUnits_eq (us : List Nat) :
    ∀ keys, Chord.pushUnits keys us = keys ++ us.map Press.new := by
  induction us with
  | nil => intro keys; simp [Chord.pushUnits]
  | cons u us ih => intro keys; simp [Chord.pushUnits, ih]

/-- The `push_n` loop is appending `n` copies. -/
theorem push_n_eq (p : Press) :
    ∀ n keys, Chord.push_n keys p n = keys ++ List.replicate n p := by
  intro n
  induction n with
  | zero => intro keys; simp [Chord.push_n]
  | succ n ih =>
    intro keys
    simp [Chord.push_n, Chord.push, ih, List.replicate_succ]

/-- Starting the wall clock `t` later shifts every absolute dispatch time by
`t` and changes nothing else. -/
theorem absDispatch_shift (tr : List Act) :
    ∀ c t, absDispatch (t + c) tr = (absDispatch c tr).map (fun e => (t + e.1, e.2)) := by
  induction tr with
  | nil => intro c t; rfl
  | cons a rest ih =>
    intro c t
    cases a with
    | wait d =>
      show absDispatch (t + c + d) rest = _
      rw [Nat.add_assoc]
      exact ih (c + d) t
    | send b => simp [absDispatch, ih]

/-! ## Claim theorems -/

/-- C1: playback expansion schedules the key-down of a press at its delay
when set and at time zero otherwise; with no duration the key-down and key-up
form one dispatch unit at that same instant, and with duration `d` the key-up
is a separate unit at exactly the down time plus `d`. -/
theorem expandPress_schedules_down_up (c : Code) (t d : Nat) :
    expandPress { code := c, delay := some t, duration := none } =
      [[⟨c, KeyAction.keyDown, t⟩, ⟨c, KeyAction.keyUp, t⟩]] ∧
    expandPress { code := c, delay := none, duration := none } =
      [[⟨c, KeyAction.keyDown, 0⟩, ⟨c, KeyAction.keyUp, 0⟩]] ∧
    expandPress { code := c, delay := some t, duration := some d } =
      [[⟨c, KeyAction.keyDown, t⟩], [⟨c, KeyAction.keyUp, t + d⟩]] ∧
    expandPress { code := c, delay := none, duration := some d } =
      [[⟨c, KeyAction.keyDown, 0⟩], [⟨c, KeyAction.keyUp, 0 + d⟩]] :=
  ⟨rfl, rfl, rfl, rfl⟩

/-- C4: `push_str` appends exactly one unicode press per UTF-16 code unit of
the text, in reading order, each with no delay and no duration, leaving the
presses already in the chord unchanged in front. -/
theorem push_str_appends_utf16_presses (keys : List Press) (s : List Char) :
    Chord.push_str keys s =
      keys ++ (encodeUtf16 s).map
        (fun u => { code := Code.UnicodeKey u, delay := none, duration := none }) := by
  exact pushUnits_eq (encodeUtf16 s) keys

/-- C5: `push_n` appends exactly `n` structurally equal copies of the press
at the end, in order, leaving pre-existing elements unchanged; `push_n p 0`
appends nothing. -/
theorem push_n_appends_copies (keys : List Press) (p : Press) (n : Nat) :
    Chord.push_n keys p n = keys ++ List.replicate n p ∧
    Chord.push_n keys p 0 = keys :=
  ⟨push_n_eq p n keys, rfl⟩

/-- C6: `as_unicode` and `as_virtual` never change the numeric code, the
delay or the duration, each is idempotent, and applied to a press already in
the requested form each returns it unchanged. -/
theorem conversions_preserve_code_and_timing (p : Press) (k : Nat) (dl dr : Option Nat) :
    (p.as_unicode).code.val = p.code.val ∧
    (p.as_unicode).delay = p.delay ∧
    (p.as_unicode).duration = p.duration ∧
    (p.as_virtual).code.val = p.code.val ∧
    (p.as_virtual).delay = p.delay ∧
    (p.as_virtual).duration = p.duration ∧
    (p.as_unicode).as_unicode = p.as_unicode ∧
    (p.as_virtual).as_virtual = p.as_virtual ∧
    Press.as_unicode { code := Code.UnicodeKey k, delay := dl, duration := dr } =
      { code := Code.UnicodeKey k, delay := dl, duration := dr } ∧
    Press.as_virtual { code := Code.VirtualKey k, delay := dl, duration := dr } =
      { code := Code.VirtualKey k, delay := dl, duration := dr } := by
  obtain ⟨c, d1, d2⟩ := p
  cases c <;> simp [Press.as_unicode, Press.as_virtual, Code.val]

/-- C7: `with_delay` only replaces the delay with `some d` and
`with_duration` only replaces the duration with `some d`; code and the other
timing field are untouched, and both are total. -/
theorem with_delay_with_duration_frame (p : Press) (d : Nat) :
    p.with_delay d = { code := p.code, delay := some d, duration := p.duration } ∧
    p.with_duration d = { code := p.code, delay := p.delay, duration := some d } :=
  ⟨rfl, rfl⟩

/-- C8: `play_after` first waits the lead time `t` and then performs exactly
the playback trace of `play` on the unmodified chord, so every absolute
dispatch instant is shifted uniformly by `t` and the batches themselves are
identical. -/
theorem play_after_waits_then_plays_shifted (w : Bool) (keys : List Press) (t : Nat) :
    Chord.play_after w keys t = Act.wait t :: Chord.play w keys ∧
    absDispatch 0 (Chord.play_after w keys t) =
      (absDispatch 0 (Chord.play w keys)).map (fun e => (t + e.1, e.2)) := by
  refine ⟨rfl, ?_⟩
  calc absDispatch 0 (Chord.play_after w keys t)
      = absDispatch (0 + t) (Chord.play w keys) := rfl
    _ = absDispatch (t + 0) (Chord.play w keys) := by rw [Nat.add_comm]
    _ = (absDispatch 0 (Chord.play w keys)).map (fun e => (t + e.1, e.2)) :=
        absDispatch_shift (Chord.play w keys) 0 t

/-- C10: on a platform other than Windows, `play` produces no actions at all
(no sink invocation, immediate return) for every chord, and the playback
phase of `play_after` reduces to the lead-time wait alone. -/
theorem play_nonwindows_dispatches_nothing (keys : List Press) (t : Nat) :
    Chord.play false keys = [] ∧
    Chord.play_after false keys t = [Act.wait t] ∧
    absDispatch 0 (Chord.play false keys) = [] :=
  ⟨rfl, rfl, rfl⟩

/-- C3: with a non-empty range, `typewriter` succeeds and relates input to
output pointwise: presses with a set delay are untouched, presses with an
unset delay keep code and duration and receive some delay of `d` milliseconds
with `lo ≤ d < hi`. -/
theorem typewriter_assigns_delays_in_range (keys : List Press) (lo hi rng : Nat)
    (h : lo < hi) :
    ∃ out rng2, Chord.typewriter keys lo hi rng = some (out, rng2) ∧
      List.Forall₂ (TypewriterRel lo hi) keys out := by
  induction keys generalizing rng with
  | nil => exact ⟨[], rng, rfl, List.Forall₂.nil⟩
  | cons p rest ih =>
    cases hd : p.delay with
    | some t =>
      obtain ⟨out, rng2, heq, hrel⟩ := ih rng
      refine ⟨p :: out, rng2, ?_, ?_⟩
      · simp [Chord.typewriter, hd, heq]
      · refine List.Forall₂.cons ⟨fun _ => rfl, fun hn => ?_⟩ hrel
        rw [hd] at hn
        exact Option.noConfusion hn
    | none =>
      have hr : randomRange rng lo hi = some (lo + rng % (hi - lo)) := by
        simp [randomRange, h]
      obtain ⟨out, rng2, heq, hrel⟩ := ih (rngNext rng)
      refine ⟨{ p with delay := some (durationFromMillis (lo + rng % (hi - lo))) } :: out,
        rng2, ?_, ?_⟩
      · simp [Chord.typewriter, hd, hr, heq]
      · refine List.Forall₂.cons ⟨fun hn => absurd hd hn, fun _ => ?_⟩ hrel
        refine ⟨rfl, rfl, lo + rng % (hi - lo), Nat.le_add_right lo _, ?_, rfl⟩
        have hm : rng % (hi - lo) < hi - lo := Nat.mod_lt _ (by omega)
        omega

/-- Witness for C3 at a concrete chord, range and generator state. -/
theorem typewriter_assigns_delays_in_range_witness :
    2 < 4 ∧
    ∃ out rng2,
      Chord.typewriter [Press.new 72, (Press.new 73).with_delay 5] 2 4 7 =
        some (out, rng2) ∧
      List.Forall₂ (TypewriterRel 2 4)
        [Press.new 72, (Press.new 73).with_delay 5] out :=
  ⟨by decide, typewriter_assigns_delays_in_range _ 2 4 7 (by decide)⟩

/-- C2 counterexample: an empty range is not rejected when every press
already carries a delay — the call completes normally, contradicting the
claim that every chord is rejected at call time. -/
theorem typewriter_empty_range_not_always_rejected :
    Chord.typewriter [(Press.new 65).with_delay 3] 5 5 0 =
      some ([(Press.new 65).with_delay 3], 0) := by
  decide

/-- C2 amended: with an empty (or inverted) range, `typewriter` panics at
the first press whose delay is unset, before any press has been mutated; if
every press already carries a delay — in particular for the empty chord —
the call completes and leaves the chord unchanged. -/
theorem typewriter_empty_range_panic_behavior (keys : List Press) (lo hi rng : Nat)
    (h : hi ≤ lo) :
    Chord.typewriter keys lo hi rng =
      if keys.all (fun p => p.delay.isSome) then some (keys, rng) else none := by
  induction keys generalizing rng with
  | nil => rfl
  | cons p rest ih =>
    cases hd : p.delay with
    | some t =>
      have hall : (p :: rest).all (fun p => p.delay.isSome) =
          rest.all (fun p => p.delay.isSome) := by
        simp [List.all_cons, hd]
      rw [hall]
      by_cases hrest : rest.all (fun p => p.delay.isSome)
      · simp [Chord.typewriter, hd, ih rng, hrest]
      · simp [Chord.typewriter, hd, ih rng, hrest]
    | none =>
      have hr : randomRange rng lo hi = none := by
        simp [randomRange, Nat.not_lt.mpr h]
      simp [Chord.typewriter, hd, hr, List.all_cons]

/-- Witness for the amended C2 at a concrete chord and empty range. -/
theorem typewriter_empty_range_panic_behavior_witness :
    5 ≤ 5 ∧
    Chord.typewriter [Press.new 65] 5 5 0 =
      (if [Press.new 65].all (fun p => p.delay.isSome)
        then some ([Press.new 65], 0) else none) :=
  ⟨by decide, typewriter_empty_range_panic_behavior [Press.new 65] 5 5 0 (by decide)⟩

/-- C9 counterexample: the state of the thread-local generator `rand::rng()`
— hidden global state, not a parameter of `typewriter` in the source —
changes the assigned delays on one and the same chord and range, so hidden
global random state does influence the result. -/
theorem typewriter_depends_on_hidden_rng_state :
    Chord.typewriter [Press.new 65] 0 10 0 ≠ Chord.typewriter [Press.new 65] 0 10 1 := by
  decide

/-- C9 amended: `typewriter` is deterministic as a function of the press
collection, the range and the thread-local generator state: equal chords with
equal generator states receive identical delays.  The source is the hidden
thread-local `rand::rng()`, not an explicitly injected one. -/
theorem typewriter_deterministic_given_rng_state (c1 c2 : List Press)
    (lo hi r1 r2 : Nat) (hc : c1 = c2) (hr : r1 = r2) :
    Chord.typewriter c1 lo hi r1 = Chord.typewriter c2 lo hi r2 := by
  rw [hc, hr]

/-- Witness for the amended C9 at a concrete chord and generator state. -/
theorem typewriter_deterministic_given_rng_state_witness :
    [Press.new 65] = [Press.new 65] ∧ (7 : Nat) = 7 ∧
    Chord.typewriter [Press.new 65] 0 10 7 = Chord.typewriter [Press.new 65] 0 10 7 :=
  ⟨rfl, rfl, typewriter_deterministic_given_rng_state [Press.new 65] [Press.new 65] 0 10 7 7 rfl rfl⟩
